import Mathlib

/-!
Verification of the semantic-resolution and indexing core of a component
markup analyzer (`src/analysis.ts`).

The TypeScript source is shallowly embedded:
* JavaScript `Map`s (which iterate in insertion order, and whose `set` on an
  existing key keeps the key's original position) become association lists
  with `mapSet` / `mapGet?`.
* JavaScript `Set`s of objects become lists of identifiers kept without
  duplicates in insertion order.
* Object identity of element / behavior descriptor objects is modelled by a
  numeric identifier: behaviors live in a table (`List BehaviorD`) indexed by
  position, elements carry their identifier inline.
* Thrown exceptions become `Except String`.
* Node's `path.basename` / `path.dirname` and JS `String.prototype.startsWith`
  are modelled over character lists (POSIX separators, as used by the code).
-/

namespace PolymerAnalysis

/-- JS `Map.prototype.set` on an association list: if the key is present the
value is replaced in place (iteration order keeps the key's first position),
otherwise the pair is appended. -/
def mapSet {κ ν : Type} [DecidableEq κ] (m : List (κ × ν)) (k : κ) (v : ν) :
    List (κ × ν) :=
  if m.any (fun p => p.1 == k) then
    m.map (fun p => if p.1 = k then (k, v) else p)
  else
    m ++ [(k, v)]

/-- JS `Map.prototype.get`: the value at the key, if present. -/
def mapGet? {κ ν : Type} [DecidableEq κ] (m : List (κ × ν)) (k : κ) : Option ν :=
  (m.find? (fun p => p.1 == k)).map (·.2)

/-- The keys of an association list, in order. -/
def keysOf {κ ν : Type} (m : List (κ × ν)) : List κ := m.map (·.1)

/-- A named item (a property, attribute or event of an element or behavior).
`payload` stands for all remaining fields of the item, which `mergeByName`
copies unchanged via `Object.assign`. -/
structure Item where
  name : String
  inheritedFrom : Option String
  payload : Nat
deriving DecidableEq, Repr

/-- The inner loop of `mergeByName` for one source: each item whose name is
still absent from the by-name map is appended as a copy (`Object.assign`)
whose `inheritedFrom` is set to the source's name (a `Map.set` with an absent
key appends). -/
def insertItems (m : List (String × Item)) (srcName : Option String)
    (vals : List Item) : List (String × Item) :=
  vals.foldl (fun m item =>
    if (mapGet? m item.name).isSome then m
    else m ++ [(item.name, { item with inheritedFrom := srcName })]) m

/-- The outer loop of `mergeByName`: the sources are processed in order. -/
def insertSources (m : List (String × Item))
    (srcs : List (Option String × List Item)) : List (String × Item) :=
  srcs.foldl (fun m src => insertItems m src.1 src.2) m

/-- `mergeByName` from `analysis.ts`: seeds a by-name map with the base items,
then for every source in order inserts each item whose name is still absent,
as a copy whose `inheritedFrom` is set to the source's name; the result is
the map's values in insertion order.  The source name is the `className` of a
behavior, which is optional at the call sites in `resolveElement`, hence
`Option String`. -/
def mergeByName (base : List Item)
    (inheritFrom : List (Option String × List Item)) : List Item :=
  (insertSources (base.foldl (fun m i => mapSet m i.name i) []) inheritFrom).map
    (·.2)

/-- The item the merge engine is specified to produce for a name absent from
the base: the first source in order that defines the name supplies its item,
annotated with that source's name. -/
def firstSourceWith (srcs : List (Option String × List Item)) (n : String) :
    Option Item :=
  match srcs with
  | [] => none
  | s :: rest =>
    match s.2.find? (fun it => it.name == n) with
    | some it => some { it with inheritedFrom := s.1 }
    | none => firstSourceWith rest n

/-- A reference appearing in a `behaviors` list: either a symbolic name to be
resolved through the behavior index, or a direct reference to a behavior
object (identified by its position in the behavior table). -/
inductive BRef where
  | byName (s : String)
  | direct (bid : Nat)
deriving DecidableEq, Repr

/-- A behavior descriptor (mixin).  Its own `behaviors` list may reference
other behaviors by name or directly. -/
structure BehaviorD where
  className : Option String
  properties : List Item
  attributes : List Item
  events : List Item
  behaviors : List BRef
deriving DecidableEq, Repr

/-- The error message thrown for an unresolvable symbolic behavior name. -/
def unresolvedBehaviorMsg (s : String) : String :=
  "Unable to resolve behavior \x60" ++ s ++
    "\x60 Did you import it? Is it annotated with @polymerBehavior?"

/-- Resolves one entry of a `behaviors` list: a string is looked up in the
name index (`Analysis.getBehavior`), and a direct object reference stands for
itself. -/
def resolveBRef (idx : List (String × Nat)) : BRef → Except String Nat
  | .byName s =>
    match mapGet? idx s with
    | some bid => .ok bid
    | none => .error (unresolvedBehaviorMsg s)
  | .direct bid => .ok bid

/-- `_getFlattenedAndResolvedBehaviors`: depth-first traversal of the behavior
graph with an identity-keyed visited set (here: the accumulated list of
identifiers, kept duplicate-free).  The imperative recursion is bounded in JS
by the finiteness of the object heap; the embedding makes that explicit with a
fuel parameter that decreases on every call (the two fuel-exhaustion branches
are unreachable for sufficient fuel). -/
def flattenGo (tbl : List BehaviorD) (idx : List (String × Nat)) :
    Nat → List Nat → List BRef → Except String (List Nat)
  | 0, _, _ => .error "flatten: out of fuel"
  | _ + 1, visited, [] => .ok visited
  | fuel + 1, visited, r :: rest =>
    match resolveBRef idx r with
    | .error e => .error e
    | .ok bid =>
      if bid ∈ visited then
        flattenGo tbl idx fuel visited rest
      else
        match tbl.get? bid with
        | none => .error "flatten: unknown behavior object"
        | some b =>
          match flattenGo tbl idx fuel (visited ++ [bid]) b.behaviors with
          | .error e => .error e
          | .ok v₁ => flattenGo tbl idx fuel v₁ rest

/-- `getFlattenedAndResolvedBehaviors`: flattening starts from an empty
visited set; the output is the visited set in insertion order. -/
def getFlattenedAndResolvedBehaviors (tbl : List BehaviorD)
    (idx : List (String × Nat)) (fuel : Nat) (behaviors : List BRef) :
    Except String (List Nat) :=
  flattenGo tbl idx fuel [] behaviors

/-- An element descriptor.  `isPolymer` models the
`instanceof PolymerElementDescriptor` test in `resolveElement`; `other`
stands for all further fields, which the resolver's shallow `for..in` copy
shares by reference with the original. -/
structure ElementD where
  tagName : Option String
  properties : List Item
  attributes : List Item
  events : List Item
  isPolymer : Bool
  behaviors : List BRef
  other : Nat
deriving DecidableEq, Repr

/-- One node of the descriptor forest.  The AST classes live outside the
analyzed source (`src/ast/ast.ts` is not part of this corpus); following the
spec's data model they form a closed sum: documents carry a url, child
entities and dependencies; inline documents carry embedded contents and no
url of their own; elements and behaviors are identified descriptor objects
(`id` / `bid` model JS object identity, behaviors by table position); imports
carry a url.  `isJson` models `document instanceof JsonDocument`. -/
inductive Desc where
  | doc (url : String) (isJson : Bool) (entities dependencies : List Desc)
  | inlineDoc (contents : List Desc)
  | elem (id : Nat) (e : ElementD)
  | behav (bid : Nat)
  | imp (url : String)

/-- A top-level DocumentDescriptor handed to `new Analysis(descriptors)`. -/
structure DocRoot where
  url : String
  isJson : Bool
  entities : List Desc
  dependencies : List Desc

/-- One visitor callback broadcast by the walker, with the data the two
gatherers consume: element/behavior visits carry the ancestor stack (the urls
of the enclosing DocumentDescriptors, outermost first), document visits carry
the url and document kind. -/
inductive VEvent where
  | vdoc (url : String) (isJson : Bool)
  | vinline
  | velem (id : Nat) (e : ElementD) (ancestors : List String)
  | vbehav (bid : Nat) (ancestors : List String)
  | vimport (url : String)
deriving DecidableEq, Repr

mutual

/-- `AnalysisWalker._walkEntity` / `_walkDocumentDescriptor`: depth-first,
preorder; a document pushes itself on the ancestor stack, broadcasts its
visit, then walks `entities` before `dependencies`; inline documents,
elements, behaviors and imports only broadcast their own visit. -/
def walkDesc (anc : List String) : Desc → List VEvent
  | .doc url isJson ents deps =>
    .vdoc url isJson ::
      (walkDescs (anc ++ [url]) ents ++ walkDescs (anc ++ [url]) deps)
  | .inlineDoc _ => [.vinline]
  | .elem i e => [.velem i e anc]
  | .behav b => [.vbehav b anc]
  | .imp u => [.vimport u]

def walkDescs (anc : List String) : List Desc → List VEvent
  | [] => []
  | d :: ds => walkDesc anc d ++ walkDescs anc ds

end

/-- `AnalysisWalker.walk`: each top-level document is walked with an empty
ancestor stack. -/
def walkForest (roots : List DocRoot) : List VEvent :=
  (roots.map (fun r =>
    VEvent.vdoc r.url r.isJson ::
      (walkDescs [r.url] r.entities ++ walkDescs [r.url] r.dependencies))).flatten

/-- The element identifiers visited by a sequence of walker events. -/
def visitedElemIds (evs : List VEvent) : List Nat :=
  evs.filterMap (fun ev => match ev with
    | .velem i _ _ => some i
    | _ => none)

/-- Node `path.basename` for the POSIX paths the analyzer uses: the part of
the path after the last separator. -/
def basenameChars (p : List Char) : List Char :=
  ((p.splitOn '/').getLastD [])

/-- Node `path.dirname` for the POSIX paths the analyzer uses: the path up to
the last separator; `.` when there is no separator, `/` when only the leading
separator remains. -/
def dirnameChars (p : List Char) : List Char :=
  let parts := p.splitOn '/'
  if parts.length ≤ 1 then ['.']
  else if parts.dropLast.all (· = []) then ['/']
  else (parts.dropLast.map (· ++ ['/'])).flatten.dropLast

def basename (p : String) : String := ⟨basenameChars p.data⟩

def dirname (p : String) : String := ⟨dirnameChars p.data⟩

/-- The configured manifest marker filenames. -/
def packageFileNames : List String := ["package.json", "bower.json"]

/-- `PackageGatherer.visitDocumentDescriptor`: for a JSON document whose
basename is a manifest marker, record the containing directory (a JS `Set`:
no duplicates, insertion order). -/
def visitPackageDoc (dirs : List String) (url : String) (isJson : Bool) :
    List String :=
  if isJson && packageFileNames.contains (basename url) then
    if dirs.contains (dirname url) then dirs else dirs ++ [dirname url]
  else dirs

/-- `ElementGatherer._getPathFromAncestors`: the url of the last ancestor
document with a non-empty url. -/
def getPathFromAncestors (anc : List String) : Option String :=
  (anc.filter (fun u => u ≠ "")).getLast?

/-- The message thrown when the same descriptor object is reached with two
distinct owning paths; `[object Object]` models the default stringification
of the descriptor. -/
def distinctPathsMsg (current stored : String) : String :=
  "Found element [object Object] at distinct paths: " ++ current ++ " and " ++
    stored

/-- The message thrown when a descriptor has no enclosing document url. -/
def noPathMsg : String :=
  "Unable to determine path to element: [object Object]"

/-- The mutable state of the two gatherer visitors during one walk. -/
structure GatherState where
  pkgDirs : List String
  elems : List (Nat × ElementD)
  elementPaths : List (Nat × String)
  behavs : List Nat
  behaviorPaths : List (Nat × String)
deriving DecidableEq, Repr

def emptyGather : GatherState := ⟨[], [], [], [], []⟩

/-- `ElementGatherer.visitElement`: no enclosing url is fatal; a re-visit of
the same object with the same owning path is a no-op; a re-visit with a
different owning path is fatal naming both paths; otherwise the element is
recorded in first-seen order. -/
def visitElementEv (st : GatherState) (id : Nat) (e : ElementD)
    (anc : List String) : Except String GatherState :=
  match getPathFromAncestors anc with
  | none => .error noPathMsg
  | some p =>
    match mapGet? st.elementPaths id with
    | some p' =>
      if p' ≠ p then .error (distinctPathsMsg p p') else .ok st
    | none =>
      .ok { st with
        elementPaths := st.elementPaths ++ [(id, p)],
        elems := st.elems ++ [(id, e)] }

/-- `ElementGatherer.visitBehavior`: same shape as `visitElement`. -/
def visitBehaviorEv (st : GatherState) (bid : Nat) (anc : List String) :
    Except String GatherState :=
  match getPathFromAncestors anc with
  | none => .error noPathMsg
  | some p =>
    match mapGet? st.behaviorPaths bid with
    | some p' =>
      if p' ≠ p then .error (distinctPathsMsg p p') else .ok st
    | none =>
      .ok { st with
        behaviorPaths := st.behaviorPaths ++ [(bid, p)],
        behavs := st.behavs ++ [bid] }

/-- Broadcast of one walker event to both gatherer visitors (the package
gatherer only reacts to document visits and never fails; the element gatherer
only reacts to element and behavior visits). -/
def stepEvent (st : GatherState) (ev : VEvent) : Except String GatherState :=
  match ev with
  | .vdoc url isJson =>
    .ok { st with pkgDirs := visitPackageDoc st.pkgDirs url isJson }
  | .vinline => .ok st
  | .vimport _ => .ok st
  | .velem id e anc => visitElementEv st id e anc
  | .vbehav bid anc => visitBehaviorEv st bid anc

/-- The visitor loop over the events of one walk: the first thrown error
aborts the construction. -/
def runGatherGo (st : GatherState) : List VEvent → Except String GatherState
  | [] => .ok st
  | ev :: evs =>
    match stepEvent st ev with
    | .error e => .error e
    | .ok st' => runGatherGo st' evs

/-- Running the walk with both gatherers from their initial state. -/
def runGather (evs : List VEvent) : Except String GatherState :=
  runGatherGo emptyGather evs

/-- The `max` helper from `analysis.ts` at its only use: `reduce` from an
undefined accumulator, keeping the accumulated dir only when strictly longer
than the candidate (the comparison returns `-1` for an undefined accumulator
and for equal lengths). -/
def maxStep (prev : Option String) (cur : String) : Option String :=
  match prev with
  | none => some cur
  | some p => if p.length > cur.length then some p else some cur

def maxDir (arr : List String) : Option String :=
  arr.foldl maxStep none

/-- JS `String.prototype.startsWith`. -/
def strStartsWith (s pre : String) : Bool :=
  pre.data.isPrefixOf s.data

/-- The package-directory attribution in the `Analysis` constructor: among
the gathered package dirs that are a string prefix of the element's owning
path, the longest (`|| ''` turns an undefined maximum into the empty-string
bucket). -/
def longestMatchingPackageDir (pkgDirs : List String) (elementPath : String) :
    String :=
  (maxDir (pkgDirs.filter (fun dir => strStartsWith elementPath dir))).getD ""

/-- A Resolved Element: the shallow copy produced by `resolveElement`, with
the same fields as the original element descriptor. -/
structure ResolvedElement where
  tagName : Option String
  properties : List Item
  attributes : List Item
  events : List Item
  isPolymer : Bool
  behaviors : List BRef
  other : Nat
deriving DecidableEq, Repr

/-- `resolveElement`: for a Polymer element the behaviors are flattened and
`properties`/`attributes`/`events` replaced by behavior-merged lists; the
`for..in` shallow copy shares every other field with the original. -/
def resolveElement (tbl : List BehaviorD) (idx : List (String × Nat))
    (fuel : Nat) (e : ElementD) : Except String ResolvedElement :=
  if e.isPolymer then
    match getFlattenedAndResolvedBehaviors tbl idx fuel e.behaviors with
    | .error err => .error err
    | .ok bids =>
      let bs := bids.filterMap (fun bid => tbl.get? bid)
      .ok { tagName := e.tagName,
            properties :=
              mergeByName e.properties (bs.map fun b => (b.className, b.properties)),
            attributes :=
              mergeByName e.attributes (bs.map fun b => (b.className, b.attributes)),
            events :=
              mergeByName e.events (bs.map fun b => (b.className, b.events)),
            isPolymer := e.isPolymer,
            behaviors := e.behaviors,
            other := e.other }
  else
    .ok { tagName := e.tagName, properties := e.properties,
          attributes := e.attributes, events := e.events,
          isPolymer := e.isPolymer, behaviors := e.behaviors,
          other := e.other }

/-- `_behaviorsByIdentifierName`: gathered behaviors with a truthy
`className` are indexed by it (an untruthy one is simply unindexed). -/
def buildBehaviorIndex (tbl : List BehaviorD) (bids : List Nat) :
    List (String × Nat) :=
  bids.foldl (fun m bid =>
    match tbl.get? bid with
    | none => m
    | some b =>
      match b.className with
      | some c => if c = "" then m else mapSet m c bid
      | none => m) []

/-- The two element indices built by the `Analysis` constructor loop. -/
structure IndexState where
  byTag : List (String × ResolvedElement)
  byPkg : List (String × List ResolvedElement)
deriving DecidableEq, Repr

/-- The tag indexing of one constructor iteration: a truthy tag name is
indexed, last write wins. -/
def indexByTag (st : IndexState) (r : ResolvedElement) : IndexState :=
  match r.tagName with
  | some t => if t = "" then st else { st with byTag := mapSet st.byTag t r }
  | none => st

/-- One iteration of the constructor's element loop, after resolution: index
by truthy tag name (last write wins), then append to the bucket of the
longest matching package dir. -/
def indexElement (pkgDirs : List String) (st : IndexState)
    (r : ResolvedElement) (elementPath : String) : IndexState :=
  let st₁ := indexByTag st r
  let dir := longestMatchingPackageDir pkgDirs elementPath
  let bucket := (mapGet? st₁.byPkg dir).getD []
  { st₁ with byPkg := mapSet st₁.byPkg dir (bucket ++ [r]) }

/-- The fully built, immutable `Analysis` instance. -/
structure Analysis where
  elementsByTagName : List (String × ResolvedElement)
  elementsByPackageDir : List (String × List ResolvedElement)
  behaviorsByIdentifierName : List (String × Nat)
  documentsByLocalPath : List (String × DocRoot)

/-- The element loop of the `Analysis` constructor: resolve each gathered
element in first-seen order (a resolution error propagates), then index it by
tag and attribute it to a package bucket. -/
def resolveAndIndexAll (tbl : List BehaviorD) (bIdx : List (String × Nat))
    (fuel : Nat) (pkgDirs : List String) (elementPaths : List (Nat × String)) :
    IndexState → List (Nat × ElementD) → Except String IndexState
  | st, [] => .ok st
  | st, p :: rest =>
    match resolveElement tbl bIdx fuel p.2 with
    | .error e => .error e
    | .ok r =>
      resolveAndIndexAll tbl bIdx fuel pkgDirs elementPaths
        (indexElement pkgDirs st r ((mapGet? elementPaths p.1).getD "")) rest

/-- The `Analysis` constructor: one walk with both gatherers, the behavior
name index, the element loop (resolve, index by tag, attribute to a package
bucket), then the top-level document index. -/
def mkAnalysis (tbl : List BehaviorD) (roots : List DocRoot) (fuel : Nat) :
    Except String Analysis :=
  match runGather (walkForest roots) with
  | .error e => .error e
  | .ok g =>
    let bIdx := buildBehaviorIndex tbl g.behavs
    match resolveAndIndexAll tbl bIdx fuel g.pkgDirs g.elementPaths
        ⟨[], []⟩ g.elems with
    | .error e => .error e
    | .ok ist =>
      .ok { elementsByTagName := ist.byTag,
            elementsByPackageDir := ist.byPkg,
            behaviorsByIdentifierName := bIdx,
            documentsByLocalPath :=
              roots.foldl (fun m r => mapSet m r.url r) [] }

def getElement (a : Analysis) (tag : String) : Option ResolvedElement :=
  mapGet? a.elementsByTagName tag

def getElements (a : Analysis) : List ResolvedElement :=
  a.elementsByTagName.map (·.2)

def getElementsForPackage (a : Analysis) (dirName : String) :
    Option (List ResolvedElement) :=
  mapGet? a.elementsByPackageDir dirName

def getBehavior (a : Analysis) (name : String) : Option Nat :=
  mapGet? a.behaviorsByIdentifierName name

def getDocument (a : Analysis) (p : String) : Option DocRoot :=
  mapGet? a.documentsByLocalPath p

/-- Modelled from the spec: `analysis.schema.json` and the `jsonschema`
library are outside the analyzed source.  Following the spec's serialized
format, an analyzed package has at minimum a `schema_version` string field
and an `elements` collection; `Option` models a missing field. -/
structure SerializedAnalysis where
  schema_version : Option String
  elements : Option (List String)
deriving DecidableEq, Repr

/-- Modelled from the spec: the structural violations the schema validator
collects (all of them, not just the first) — one per missing required field
of the minimal serialized format. -/
def structuralErrors (p : SerializedAnalysis) : List String :=
  (match p.schema_version with
   | none => ["requires property \"schema_version\""]
   | some _ => []) ++
  (match p.elements with
   | none => ["requires property \"elements\""]
   | some _ => [])

/-- The `ValidationError` message: the aggregate of every structural
violation message. -/
def validationErrorMessage (errs : List String) : String :=
  "Unable to validate serialized Polymer analysis. Got " ++
    toString errs.length ++ " errors: " ++
    String.intercalate "\n" (errs.map (fun e => "    " ++ e))

/-- The regex `^1\.\d+\.\d+$`: exactly `1`, a dot, one or more digits, a dot,
one or more digits. -/
def versionOk (s : String) : Bool :=
  match s.data.splitOn '.' with
  | [a, b, c] =>
    a = ['1'] && !b.isEmpty && b.all Char.isDigit && !c.isEmpty &&
      c.all Char.isDigit
  | _ => false

/-- The message of the error thrown on a version mismatch. -/
def invalidVersionMsg (v : String) : String :=
  "Invalid schema_version in AnalyzedPackage. Expected 1.x.x, got " ++ v

/-- `Analysis.validate`: run the structural validator; any structural
violations throw the aggregate `ValidationError`; only afterwards is the
`schema_version` pattern checked, throwing its own error on mismatch. -/
def validate (p : SerializedAnalysis) : Except String Unit :=
  if (structuralErrors p).length > 0 then
    .error (validationErrorMessage (structuralErrors p))
  else if versionOk (p.schema_version.getD "undefined") then .ok ()
  else .error (invalidVersionMsg (p.schema_version.getD "undefined"))

/-- Substring test over the underlying character lists (used to state that an
error message does or does not mention a given fragment). -/
def containsChars (needle : List Char) : List Char → Bool
  | [] => needle.isEmpty
  | c :: rest => needle.isPrefixOf (c :: rest) || containsChars needle rest

def containsStr (hay needle : String) : Bool :=
  containsChars needle.data hay.data

def c5Elem : ElementD := ⟨some "x-a", [], [], [], false, [], 7⟩

def c5Roots : List DocRoot :=
  [⟨"/a/package.json", true, [], []⟩,
   ⟨"/a/b/package.json", true, [], []⟩,
   ⟨"/a/b/c.html", false, [.elem 0 c5Elem], []⟩]

/-- Every key in the by-name map equals the name of the item stored at it. -/
def goodPairs (m : List (String × Item)) : Prop := ∀ p ∈ m, p.1 = p.2.name

/-- The invariant maintained by the gatherers across one walk: elements and
behaviors are recorded at most once (in first-seen order), the owning-path
maps have exactly the recorded descriptors as keys, and the package-dir set
has no duplicates. -/
def GatherInv (g : GatherState) : Prop :=
  (g.elems.map (·.1)).Nodup ∧ keysOf g.elementPaths = g.elems.map (·.1) ∧
  g.behavs.Nodup ∧ keysOf g.behaviorPaths = g.behavs ∧ g.pkgDirs.Nodup

/-- A concrete gatherer state for the C6 witness: element object `7` is
already recorded with owning path `/d.html`. -/
def c6Elem : ElementD := ⟨none, [], [], [], false, [], 0⟩

def c6State : GatherState := ⟨[], [(7, c6Elem)], [(7, "/d.html")], [], []⟩

/-- A forest with one element without a tag name, for C10. -/
def c10Roots : List DocRoot :=
  [⟨"/d.html", false, [.elem 0 ⟨none, [], [], [], false, [], 5⟩], []⟩]

/-! ### Association-list map lemmas -/

theorem mapGet?_cons_of_pos {κ ν : Type} [DecidableEq κ] (p : κ × ν)
    (m : List (κ × ν)) (k : κ) (h : p.1 = k) :
    mapGet? (p :: m) k = some p.2 := by
  unfold mapGet?
  rw [List.find?_cons_of_pos _ (by simp [h])]
  rfl

theorem mapGet?_cons_of_neg {κ ν : Type} [DecidableEq κ] (p : κ × ν)
    (m : List (κ × ν)) (k : κ) (h : p.1 ≠ k) :
    mapGet? (p :: m) k = mapGet? m k := by
  unfold mapGet?
  rw [List.find?_cons_of_neg _ (by simp [h])]

theorem mapGet?_eq_none_iff {κ ν : Type} [DecidableEq κ] (m : List (κ × ν))
    (k : κ) : mapGet? m k = none ↔ k ∉ keysOf m := by
  constructor
  · intro h hk
    simp only [keysOf, List.mem_map] at hk
    obtain ⟨p, hp, hpk⟩ := hk
    cases hf : m.find? (fun p => p.1 == k) with
    | some q => simp [mapGet?, hf] at h
    | none =>
      have := List.find?_eq_none.mp hf p hp
      simp [hpk] at this
  · intro h
    have hf : m.find? (fun p => p.1 == k) = none := by
      refine List.find?_eq_none.mpr ?_
      intro p hp
      simp only [beq_iff_eq]
      intro hpk
      exact h (hpk ▸ List.mem_map_of_mem (·.1) hp)
    simp [mapGet?, hf]

theorem mapSet_of_not_mem {κ ν : Type} [DecidableEq κ] (m : List (κ × ν))
    (k : κ) (v : ν) (h : k ∉ keysOf m) : mapSet m k v = m ++ [(k, v)] := by
  have hany : m.any (fun p => p.1 == k) = false := by
    simp only [List.any_eq_false, beq_iff_eq]
    intro p hp hpk
    exact h (hpk ▸ List.mem_map_of_mem (·.1) hp)
  simp [mapSet, hany]

theorem mapGet?_append_left {κ ν : Type} [DecidableEq κ] (m₁ m₂ : List (κ × ν))
    (k : κ) (v : ν) (h : mapGet? m₁ k = some v) :
    mapGet? (m₁ ++ m₂) k = some v := by
  unfold mapGet? at *
  rw [List.find?_append]
  cases hf : m₁.find? (fun p => p.1 == k) with
  | none => rw [hf] at h; simp at h
  | some p => rw [hf] at h; simpa using h

theorem mapGet?_append_right {κ ν : Type} [DecidableEq κ] (m₁ m₂ : List (κ × ν))
    (k : κ) (h : mapGet? m₁ k = none) :
    mapGet? (m₁ ++ m₂) k = mapGet? m₂ k := by
  unfold mapGet? at *
  rw [List.find?_append]
  cases hf : m₁.find? (fun p => p.1 == k) with
  | none => simp
  | some p => rw [hf] at h; simp at h

theorem mapGet?_singleton_self {κ ν : Type} [DecidableEq κ] (k : κ) (v : ν) :
    mapGet? [(k, v)] k = some v :=
  mapGet?_cons_of_pos (k, v) [] k rfl

theorem mapGet?_replace {κ ν : Type} [DecidableEq κ] (m : List (κ × ν))
    (k : κ) (v : ν) (h : k ∈ keysOf m) :
    mapGet? (m.map (fun p => if p.1 = k then (k, v) else p)) k = some v := by
  induction m with
  | nil => simp [keysOf] at h
  | cons p rest ih =>
    by_cases hpk : p.1 = k
    · simp only [List.map_cons, if_pos hpk]
      exact mapGet?_cons_of_pos (k, v) _ k rfl
    · simp only [List.map_cons, if_neg hpk]
      rw [mapGet?_cons_of_neg p _ k hpk]
      refine ih ?_
      simp only [keysOf, List.map_cons, List.mem_cons] at h
      exact h.resolve_left fun hh => hpk hh.symm

theorem mapGet?_mapSet_self {κ ν : Type} [DecidableEq κ] (m : List (κ × ν))
    (k : κ) (v : ν) : mapGet? (mapSet m k v) k = some v := by
  by_cases h : k ∈ keysOf m
  · have hany : m.any (fun p => p.1 == k) = true := by
      simp only [keysOf, List.mem_map] at h
      obtain ⟨p, hp, hpk⟩ := h
      exact List.any_eq_true.mpr ⟨p, hp, by simp [hpk]⟩
    rw [mapSet, if_pos hany]
    exact mapGet?_replace m k v h
  · rw [mapSet_of_not_mem m k v h,
      mapGet?_append_right m [(k, v)] k ((mapGet?_eq_none_iff m k).mpr h)]
    exact mapGet?_singleton_self k v

/-! ### Merge-engine lemmas (claim C1) -/

theorem insertItems_cons (m : List (String × Item)) (s : Option String)
    (v : Item) (rest : List Item) :
    insertItems m s (v :: rest) =
      insertItems (if (mapGet? m v.name).isSome then m
        else m ++ [(v.name, { v with inheritedFrom := s })]) s rest := rfl

theorem insertSources_cons (m : List (String × Item))
    (s : Option String × List Item) (rest : List (Option String × List Item)) :
    insertSources m (s :: rest) = insertSources (insertItems m s.1 s.2) rest :=
  rfl

theorem insertItems_extend (m : List (String × Item)) (s : Option String)
    (vals : List Item) : ∃ ext, insertItems m s vals = m ++ ext := by
  induction vals generalizing m with
  | nil => exact ⟨[], by simp [insertItems]⟩
  | cons v rest ih =>
    rw [insertItems_cons]
    by_cases hv : (mapGet? m v.name).isSome
    · rw [if_pos hv]; exact ih m
    · rw [if_neg hv]
      obtain ⟨ext, hext⟩ := ih (m ++ [(v.name, { v with inheritedFrom := s })])
      refine ⟨(v.name, { v with inheritedFrom := s }) :: ext, ?_⟩
      rw [hext, List.append_assoc]
      rfl

theorem insertSources_extend (m : List (String × Item))
    (srcs : List (Option String × List Item)) :
    ∃ ext, insertSources m srcs = m ++ ext := by
  induction srcs generalizing m with
  | nil => exact ⟨[], by simp [insertSources]⟩
  | cons s rest ih =>
    rw [insertSources_cons]
    obtain ⟨e₁, he₁⟩ := insertItems_extend m s.1 s.2
    obtain ⟨e₂, he₂⟩ := ih (insertItems m s.1 s.2)
    exact ⟨e₁ ++ e₂, by rw [he₂, he₁, List.append_assoc]⟩

theorem insertItems_get_some (m : List (String × Item)) (s : Option String)
    (vals : List Item) (n : String) (v : Item) (h : mapGet? m n = some v) :
    mapGet? (insertItems m s vals) n = some v := by
  obtain ⟨ext, hext⟩ := insertItems_extend m s vals
  rw [hext]; exact mapGet?_append_left m ext n v h

theorem insertSources_get_some (m : List (String × Item))
    (srcs : List (Option String × List Item)) (n : String) (v : Item)
    (h : mapGet? m n = some v) : mapGet? (insertSources m srcs) n = some v := by
  obtain ⟨ext, hext⟩ := insertSources_extend m srcs
  rw [hext]; exact mapGet?_append_left m ext n v h

theorem insertItems_get_none (m : List (String × Item)) (s : Option String)
    (vals : List Item) (n : String) (h : mapGet? m n = none) :
    mapGet? (insertItems m s vals) n =
      (vals.find? (fun it => it.name == n)).map
        (fun it => { it with inheritedFrom := s }) := by
  induction vals generalizing m with
  | nil => simpa [insertItems] using h
  | cons v rest ih =>
    rw [insertItems_cons]
    by_cases hvn : v.name = n
    · have hv : ¬ (mapGet? m v.name).isSome = true := by rw [hvn, h]; simp
      rw [if_neg hv]
      have hstep : mapGet? (m ++ [(v.name, { v with inheritedFrom := s })]) n
          = some { v with inheritedFrom := s } := by
        rw [mapGet?_append_right m _ n h, ← hvn]
        exact mapGet?_singleton_self v.name _
      rw [insertItems_get_some _ s rest n _ hstep,
        List.find?_cons_of_pos _ (by simp [hvn])]
      rfl
    · rw [List.find?_cons_of_neg _ (by simp [hvn])]
      by_cases hv : (mapGet? m v.name).isSome
      · rw [if_pos hv]; exact ih m h
      · rw [if_neg hv]
        refine ih _ ?_
        rw [mapGet?_append_right m _ n h]
        rw [mapGet?_cons_of_neg _ _ _ hvn]
        rfl

theorem insertSources_get_none (m : List (String × Item))
    (srcs : List (Option String × List Item)) (n : String)
    (h : mapGet? m n = none) :
    mapGet? (insertSources m srcs) n = firstSourceWith srcs n := by
  induction srcs generalizing m with
  | nil => simpa [insertSources, firstSourceWith] using h
  | cons s rest ih =>
    rw [insertSources_cons]
    have hstep := insertItems_get_none m s.1 s.2 n h
    cases hf : s.2.find? (fun it => it.name == n) with
    | some it =>
      rw [hf] at hstep
      rw [insertSources_get_some (insertItems m s.1 s.2) rest n _
        (by simpa using hstep)]
      simp [firstSourceWith, hf]
    | none =>
      rw [hf] at hstep
      rw [ih (insertItems m s.1 s.2) (by simpa using hstep)]
      simp [firstSourceWith, hf]

theorem keysOf_append {κ ν : Type} (m₁ m₂ : List (κ × ν)) :
    keysOf (m₁ ++ m₂) = keysOf m₁ ++ keysOf m₂ :=
  List.map_append _ m₁ m₂

theorem seed_eq (base : List Item) :
    ∀ m : List (String × Item), (∀ i ∈ base, i.name ∉ keysOf m) →
      (base.map Item.name).Nodup →
      base.foldl (fun m i => mapSet m i.name i) m =
        m ++ base.map (fun i => (i.name, i)) := by
  induction base with
  | nil => intro m _ _; simp
  | cons i rest ih =>
    intro m hdisj hnd
    simp only [List.map_cons, List.nodup_cons] at hnd
    simp only [List.foldl_cons, List.map_cons]
    rw [mapSet_of_not_mem m i.name i (hdisj i (List.mem_cons_self i rest))]
    rw [ih (m ++ [(i.name, i)]) ?_ hnd.2]
    · rw [List.append_assoc]; rfl
    · intro j hj
      rw [keysOf_append]
      intro hmem
      rcases List.mem_append.mp hmem with h1 | h2
      · exact hdisj j (List.mem_cons_of_mem i hj) h1
      · have : j.name = i.name := by simpa [keysOf] using h2
        exact hnd.1 (this ▸ List.mem_map_of_mem Item.name hj)

theorem mapGet?_base_pairs (base : List Item) (it : Item)
    (hnd : (base.map Item.name).Nodup) (hmem : it ∈ base) :
    mapGet? (base.map (fun i => (i.name, i))) it.name = some it := by
  induction base with
  | nil => cases hmem
  | cons j rest ih =>
    simp only [List.map_cons, List.nodup_cons] at hnd
    simp only [List.map_cons]
    by_cases hj : j.name = it.name
    · have hji : j = it := by
        rcases List.mem_cons.mp hmem with h | h
        · exact h.symm
        · exact absurd (hj ▸ List.mem_map_of_mem Item.name h) hnd.1
      rw [mapGet?_cons_of_pos _ _ _ hj, hji]
    · rw [mapGet?_cons_of_neg _ _ _ hj]
      refine ih hnd.2 ?_
      rcases List.mem_cons.mp hmem with h | h
      · exact absurd (congrArg Item.name h.symm) hj
      · exact h

theorem goodPairs_insertItems (m : List (String × Item)) (s : Option String)
    (vals : List Item) (h : goodPairs m) : goodPairs (insertItems m s vals) := by
  induction vals generalizing m with
  | nil => exact h
  | cons v rest ih =>
    rw [insertItems_cons]
    by_cases hv : (mapGet? m v.name).isSome
    · rw [if_pos hv]; exact ih m h
    · rw [if_neg hv]
      refine ih _ ?_
      intro p hp
      rcases List.mem_append.mp hp with h1 | h2
      · exact h p h1
      · rw [List.mem_singleton.mp h2]

theorem goodPairs_insertSources (m : List (String × Item))
    (srcs : List (Option String × List Item)) (h : goodPairs m) :
    goodPairs (insertSources m srcs) := by
  induction srcs generalizing m with
  | nil => exact h
  | cons s rest ih =>
    rw [insertSources_cons]
    exact ih _ (goodPairs_insertItems m s.1 s.2 h)

theorem find?_map_snd (m : List (String × Item)) (n : String)
    (h : goodPairs m) :
    (m.map (·.2)).find? (fun it => it.name == n) = mapGet? m n := by
  induction m with
  | nil => rfl
  | cons p rest ih =>
    simp only [List.map_cons]
    have hp := h p (List.mem_cons_self p rest)
    by_cases hn : p.1 = n
    · rw [List.find?_cons_of_pos _ (by simp [← hp, hn]),
        mapGet?_cons_of_pos _ _ _ hn]
    · rw [List.find?_cons_of_neg _ (by simp [← hp, hn]),
        mapGet?_cons_of_neg _ _ _ hn]
      exact ih (fun q hq => h q (List.mem_cons_of_mem p hq))

theorem keysOf_base_pairs (base : List Item) :
    keysOf (base.map (fun i => (i.name, i))) = base.map Item.name := by
  simp [keysOf, List.map_map]

/-- **C1.** With the data-model invariant that names are unique within the
base list, `mergeByName` (i) keeps every base item verbatim, as a prefix of
the result; (ii) never replaces a base item by a same-named source item (the
first item of the base's name in the result is the base item itself); and
(iii) resolves each name absent from the base to the item of the first
source in order that defines that name, as a copy annotated with that
source's name in `inheritedFrom` — later sources contribute nothing. -/
theorem mergeByName_base_wins_first_source
    (base : List Item) (srcs : List (Option String × List Item))
    (hnd : (base.map Item.name).Nodup) :
    (∃ ext, mergeByName base srcs = base ++ ext) ∧
    (∀ it ∈ base,
      (mergeByName base srcs).find? (fun x => x.name == it.name) = some it) ∧
    (∀ n, n ∉ base.map Item.name →
      (mergeByName base srcs).find? (fun x => x.name == n) =
        firstSourceWith srcs n) := by
  have hseed : base.foldl (fun m i => mapSet m i.name i) [] =
      base.map (fun i => (i.name, i)) := by
    simpa using seed_eq base [] (by simp [keysOf]) hnd
  have hgood : goodPairs (base.map (fun i => (i.name, i))) := by
    intro p hp
    simp only [List.mem_map] at hp
    obtain ⟨i, _, rfl⟩ := hp
    rfl
  have hgood' :
      goodPairs (insertSources (base.map (fun i => (i.name, i))) srcs) :=
    goodPairs_insertSources _ _ hgood
  refine ⟨?_, ?_, ?_⟩
  · obtain ⟨ext, hext⟩ :=
      insertSources_extend (base.map (fun i => (i.name, i))) srcs
    refine ⟨ext.map (·.2), ?_⟩
    unfold mergeByName
    rw [hseed, hext, List.map_append]
    congr 1
    rw [List.map_map]
    exact List.map_id base
  · intro it hit
    unfold mergeByName
    rw [hseed, find?_map_snd _ _ hgood']
    exact insertSources_get_some _ srcs it.name it
      (mapGet?_base_pairs base it hnd hit)
  · intro n hn
    unfold mergeByName
    rw [hseed, find?_map_snd _ _ hgood']
    refine insertSources_get_none _ srcs n ((mapGet?_eq_none_iff _ n).mpr ?_)
    rw [keysOf_base_pairs]
    exact hn

/-- Witness for C1 at a concrete input: base defines `p`, source `B2` defines
`p` (shadowed by the base) and `q`, source `B3` defines `q` (shadowed by
`B2`). -/
theorem mergeByName_base_wins_first_source_witness :
    ((([⟨"p", none, 1⟩] : List Item).map Item.name).Nodup) ∧
    ((∃ ext, mergeByName [⟨"p", none, 1⟩]
        [(some "B2", [⟨"p", none, 2⟩, ⟨"q", none, 3⟩]),
         (some "B3", [⟨"q", none, 4⟩])] = [⟨"p", none, 1⟩] ++ ext) ∧
      (∀ it ∈ ([⟨"p", none, 1⟩] : List Item),
        (mergeByName [⟨"p", none, 1⟩]
          [(some "B2", [⟨"p", none, 2⟩, ⟨"q", none, 3⟩]),
           (some "B3", [⟨"q", none, 4⟩])]).find?
          (fun x => x.name == it.name) = some it) ∧
      (∀ n, n ∉ ([⟨"p", none, 1⟩] : List Item).map Item.name →
        (mergeByName [⟨"p", none, 1⟩]
          [(some "B2", [⟨"p", none, 2⟩, ⟨"q", none, 3⟩]),
           (some "B3", [⟨"q", none, 4⟩])]).find?
          (fun x => x.name == n) =
          firstSourceWith
            [(some "B2", [⟨"p", none, 2⟩, ⟨"q", none, 3⟩]),
             (some "B3", [⟨"q", none, 4⟩])] n)) :=
  ⟨by decide, mergeByName_base_wins_first_source _ _ (by decide)⟩

/-! ### Behavior-flattening lemmas (claims C2, C7) -/

theorem flattenGo_nodup_mono (tbl : List BehaviorD)
    (idx : List (String × Nat)) :
    ∀ fuel visited bs out, visited.Nodup →
      flattenGo tbl idx fuel visited bs = .ok out →
      out.Nodup ∧ visited <+: out := by
  intro fuel
  induction fuel with
  | zero =>
    intro visited bs out _ hc
    simp [flattenGo] at hc
  | succ fuel ih =>
    intro visited bs out hnd hc
    match bs with
    | [] =>
      simp only [flattenGo] at hc
      cases hc
      exact ⟨hnd, List.prefix_refl _⟩
    | r :: rest =>
      simp only [flattenGo] at hc
      cases hres : resolveBRef idx r with
      | error e => simp only [hres] at hc; cases hc
      | ok bid =>
        simp only [hres] at hc
        by_cases hmem : bid ∈ visited
        · rw [if_pos hmem] at hc
          exact ih visited rest out hnd hc
        · rw [if_neg hmem] at hc
          cases hget : tbl.get? bid with
          | none => simp only [hget] at hc; cases hc
          | some b =>
            simp only [hget] at hc
            cases hrec : flattenGo tbl idx fuel (visited ++ [bid]) b.behaviors
              with
            | error e => simp only [hrec] at hc; cases hc
            | ok v₁ =>
              simp only [hrec] at hc
              have hnd' : (visited ++ [bid]).Nodup := by
                rw [List.nodup_append]
                exact ⟨hnd, List.nodup_singleton bid,
                  fun a ha hb => hmem ((List.mem_singleton.mp hb) ▸ ha)⟩
              obtain ⟨hv₁, hpre₁⟩ := ih (visited ++ [bid]) b.behaviors v₁ hnd' hrec
              obtain ⟨hout, hpre₂⟩ := ih v₁ rest out hv₁ hc
              exact ⟨hout, ((List.prefix_append visited [bid]).trans hpre₁).trans
                hpre₂⟩

/-- **C2.** When flattening succeeds (every symbolic name resolved), each
distinct behavior object appears exactly once in the output, and the diamond
`B1 → [B2, B3]`, `B2 → [B3]` flattens `B1`'s list to `[B2, B3]`: `B3` once,
after `B2` (behaviors `B2`/`B3` are table entries `0`/`1`). -/
theorem flattened_behaviors_distinct_diamond :
    (∀ (tbl : List BehaviorD) (idx : List (String × Nat)) fuel bs out,
      getFlattenedAndResolvedBehaviors tbl idx fuel bs = .ok out → out.Nodup) ∧
    getFlattenedAndResolvedBehaviors
      [⟨some "B2", [], [], [], [.byName "B3"]⟩, ⟨some "B3", [], [], [], []⟩]
      [("B2", 0), ("B3", 1)] 10 [.byName "B2", .byName "B3"] = .ok [0, 1] := by
  constructor
  · intro tbl idx fuel bs out h
    exact (flattenGo_nodup_mono tbl idx fuel [] bs out (List.nodup_nil) h).1
  · rfl

/-- Witness for C2's universally quantified part, applied at the diamond
instance. -/
theorem flattened_behaviors_distinct_diamond_witness :
    ([0, 1] : List Nat).Nodup :=
  flattened_behaviors_distinct_diamond.1
    [⟨some "B2", [], [], [], [.byName "B3"]⟩, ⟨some "B3", [], [], [], []⟩]
    [("B2", 0), ("B3", 1)] 10 [.byName "B2", .byName "B3"] [0, 1] rfl

theorem flattenGo_unresolved_head (tbl : List BehaviorD)
    (idx : List (String × Nat)) (s : String) (h : mapGet? idx s = none)
    (fuel : Nat) (visited : List Nat) (rest : List BRef) :
    flattenGo tbl idx (fuel + 1) visited (.byName s :: rest) =
      .error (unresolvedBehaviorMsg s) := by
  simp [flattenGo, resolveBRef, h]

theorem flattenGo_unresolved_mem (tbl : List BehaviorD)
    (idx : List (String × Nat)) (s : String) (h : mapGet? idx s = none) :
    ∀ fuel visited bs, BRef.byName s ∈ bs →
      ∃ msg, flattenGo tbl idx fuel visited bs = .error msg := by
  intro fuel
  induction fuel with
  | zero => intro visited bs _; exact ⟨_, rfl⟩
  | succ fuel ih =>
    intro visited bs hmem
    match bs with
    | [] => cases hmem
    | r :: rest =>
      rcases List.mem_cons.mp hmem with hr | hr
      · subst hr
        exact ⟨_, flattenGo_unresolved_head tbl idx s h fuel visited rest⟩
      · simp only [flattenGo]
        cases hres : resolveBRef idx r with
        | error e => simp only [hres]; exact ⟨e, rfl⟩
        | ok bid =>
          simp only [hres]
          by_cases hv : bid ∈ visited
          · rw [if_pos hv]
            exact ih visited rest hr
          · rw [if_neg hv]
            cases hget : tbl.get? bid with
            | none => simp only [hget]; exact ⟨_, rfl⟩
            | some b =>
              simp only [hget]
              cases hrec : flattenGo tbl idx fuel (visited ++ [bid]) b.behaviors
                with
              | error e => simp only [hrec]; exact ⟨e, rfl⟩
              | ok v₁ => simp only [hrec]; exact ih v₁ rest hr

/-! ### Walker lemmas (claim C3) -/

theorem walkDesc_inline_eq (anc : List String) (cs : List Desc) :
    walkDesc anc (.inlineDoc cs) = [.vinline] := by
  simp [walkDesc]

theorem visitedElemIds_append (a b : List VEvent) :
    visitedElemIds (a ++ b) = visitedElemIds a ++ visitedElemIds b := by
  simp only [visitedElemIds]
  rw [List.filterMap_append]

/-- **C3 (amended).** The walker does not recurse into
InlineDocumentDescriptors: `_walkInlineDocumentDescriptor` only broadcasts
the inline-document visit, so nothing contained in an inline document is
visited.  Only nested DocumentDescriptors recurse (entities before
dependencies, under the extended ancestor stack); elements, behaviors and
imports are leaves that only broadcast their own visit. -/
theorem walker_inline_document_is_leaf :
    (∀ anc cs, walkDesc anc (.inlineDoc cs) = [.vinline]) ∧
    (∀ anc cs, visitedElemIds (walkDesc anc (.inlineDoc cs)) = []) ∧
    (∀ anc url j ents deps,
      walkDesc anc (.doc url j ents deps) =
        .vdoc url j ::
          (walkDescs (anc ++ [url]) ents ++ walkDescs (anc ++ [url]) deps)) ∧
    (∀ anc i e, walkDesc anc (.elem i e) = [.velem i e anc]) ∧
    (∀ anc b, walkDesc anc (.behav b) = [.vbehav b anc]) ∧
    (∀ anc u, walkDesc anc (.imp u) = [.vimport u]) := by
  refine ⟨walkDesc_inline_eq, ?_, ?_, ?_, ?_, ?_⟩ <;>
    intros <;> simp [walkDesc, walkDesc_inline_eq, visitedElemIds]

/-- **C3 counterexample.** A document whose only entity is an
InlineDocumentDescriptor containing element `0`: the walk broadcasts the
document and inline-document visits but never visits the contained element,
refuting the claim that inline documents recurse like documents. -/
theorem walker_inline_document_counterexample :
    walkDesc [] (.doc "/d.html" false
        [.inlineDoc [.elem 0 ⟨some "x-in", [], [], [], false, [], 0⟩]] []) =
      [.vdoc "/d.html" false, .vinline] ∧
    visitedElemIds (walkDesc [] (.doc "/d.html" false
        [.inlineDoc [.elem 0 ⟨some "x-in", [], [], [], false, [], 0⟩]] [])) =
      [] := by
  constructor <;> decide

/-- **C7.** An element whose behaviors list contains a symbolic name absent
from the behavior index makes construction fail: (i) when the flattening
reaches the name, the thrown error is exactly the unresolved-behavior
message; (ii) that message contains the missing name; (iii) whatever else the
list contains, flattening a list containing the unresolved name always
fails; (iv) end to end, an element declaring behavior `"Foo"` with no
registered behavior makes `new Analysis(...)` throw the message containing
`"Foo"`. -/
theorem unresolved_behavior_fails_construction :
    (∀ (idx : List (String × Nat)) s, mapGet? idx s = none →
      ∀ (tbl : List BehaviorD) fuel visited rest,
        flattenGo tbl idx (fuel + 1) visited (.byName s :: rest) =
          .error (unresolvedBehaviorMsg s)) ∧
    (∀ s, ∃ s1 s2, unresolvedBehaviorMsg s = s1 ++ s ++ s2) ∧
    (∀ (tbl : List BehaviorD) idx s fuel visited bs, BRef.byName s ∈ bs →
      mapGet? idx s = none →
      ∃ msg, flattenGo tbl idx fuel visited bs = .error msg) ∧
    (mkAnalysis []
        [⟨"/d.html", false,
          [.elem 0 ⟨some "x-a", [], [], [], true, [.byName "Foo"], 0⟩], []⟩]
        100 = .error (unresolvedBehaviorMsg "Foo") ∧
      containsStr (unresolvedBehaviorMsg "Foo") "Foo" = true) := by
  refine ⟨?_, ?_, ?_, rfl, by decide⟩
  · intro idx s h tbl fuel visited rest
    exact flattenGo_unresolved_head tbl idx s h fuel visited rest
  · intro s
    exact ⟨"Unable to resolve behavior \x60",
      "\x60 Did you import it? Is it annotated with @polymerBehavior?", rfl⟩
  · intro tbl idx s fuel visited bs hmem h
    exact flattenGo_unresolved_mem tbl idx s h fuel visited bs hmem

/-- Witness for C7's quantified parts at a concrete input: an empty behavior
index cannot resolve `"Foo"`. -/
theorem unresolved_behavior_fails_construction_witness :
    flattenGo [] [] 1 [] [.byName "Foo"] = .error (unresolvedBehaviorMsg "Foo") :=
  unresolved_behavior_fails_construction.1 [] "Foo" rfl [] 0 [] []

/-! ### Gatherer lemmas (claims C6, C8) -/

theorem not_mem_of_contains_eq_false (l : List String) (a : String)
    (h : l.contains a = false) : a ∉ l := by
  intro hmem
  have hel : l.elem a = true := List.elem_eq_true_of_mem hmem
  rw [show l.contains a = l.elem a from rfl, hel] at h
  cases h

theorem visitPackageDoc_nodup (dirs : List String) (url : String) (j : Bool)
    (h : dirs.Nodup) : (visitPackageDoc dirs url j).Nodup := by
  unfold visitPackageDoc
  split
  · split
    · exact h
    · next hc =>
      rw [List.nodup_append]
      refine ⟨h, List.nodup_singleton _, ?_⟩
      intro a ha hb
      rw [List.mem_singleton.mp hb] at ha
      exact not_mem_of_contains_eq_false dirs _ (Bool.of_not_eq_true hc) ha
  · exact h

theorem stepEvent_inv (g : GatherState) (ev : VEvent) (g' : GatherState)
    (hinv : GatherInv g) (h : stepEvent g ev = .ok g') : GatherInv g' := by
  obtain ⟨h1, h2, h3, h4, h5⟩ := hinv
  cases ev with
  | vdoc url isJson =>
    cases h
    exact ⟨h1, h2, h3, h4, visitPackageDoc_nodup g.pkgDirs url isJson h5⟩
  | vinline => cases h; exact ⟨h1, h2, h3, h4, h5⟩
  | vimport u => cases h; exact ⟨h1, h2, h3, h4, h5⟩
  | velem id e anc =>
    simp only [stepEvent] at h
    unfold visitElementEv at h
    cases hanc : getPathFromAncestors anc with
    | none => simp only [hanc] at h; cases h
    | some p =>
      simp only [hanc] at h
      cases hstored : mapGet? g.elementPaths id with
      | some p' =>
        simp only [hstored] at h
        by_cases hne : p' ≠ p
        · rw [if_pos hne] at h; cases h
        · rw [if_neg hne] at h
          cases h
          exact ⟨h1, h2, h3, h4, h5⟩
      | none =>
        simp only [hstored] at h
        cases h
        refine ⟨?_, ?_, h3, h4, h5⟩
        · rw [List.map_append, List.nodup_append]
          refine ⟨h1, by simp, ?_⟩
          intro a ha hb
          simp only [List.map_cons, List.map_nil, List.mem_singleton] at hb
          subst hb
          have := (mapGet?_eq_none_iff _ _).mp hstored
          rw [h2] at this
          exact this ha
        · rw [keysOf_append, h2, List.map_append]
          rfl
  | vbehav bid anc =>
    simp only [stepEvent] at h
    unfold visitBehaviorEv at h
    cases hanc : getPathFromAncestors anc with
    | none => simp only [hanc] at h; cases h
    | some p =>
      simp only [hanc] at h
      cases hstored : mapGet? g.behaviorPaths bid with
      | some p' =>
        simp only [hstored] at h
        by_cases hne : p' ≠ p
        · rw [if_pos hne] at h; cases h
        · rw [if_neg hne] at h
          cases h
          exact ⟨h1, h2, h3, h4, h5⟩
      | none =>
        simp only [hstored] at h
        cases h
        refine ⟨h1, h2, ?_, ?_, h5⟩
        · rw [List.nodup_append]
          refine ⟨h3, List.nodup_singleton _, ?_⟩
          intro a ha hb
          rw [List.mem_singleton.mp hb] at ha
          have := (mapGet?_eq_none_iff _ _).mp hstored
          rw [h4] at this
          exact this ha
        · rw [keysOf_append, h4]
          rfl

theorem runGatherGo_inv : ∀ (evs : List VEvent) (g g' : GatherState),
    GatherInv g → runGatherGo g evs = .ok g' → GatherInv g' := by
  intro evs
  induction evs with
  | nil =>
    intro g g' hinv h
    cases h
    exact hinv
  | cons ev evs ih =>
    intro g g' hinv h
    simp only [runGatherGo] at h
    cases hstep : stepEvent g ev with
    | error e => simp only [hstep] at h; cases h
    | ok g₁ =>
      simp only [hstep] at h
      exact ih g₁ g' (stepEvent_inv g ev g₁ hinv hstep) h

theorem runGather_inv (evs : List VEvent) (g : GatherState)
    (h : runGather evs = .ok g) : GatherInv g :=
  runGatherGo_inv evs emptyGather g
    ⟨List.nodup_nil, rfl, List.nodup_nil, rfl, List.nodup_nil⟩ h

/-- **C6.** Re-visiting an element or behavior descriptor object already
recorded with the same owning path is a no-op; re-visiting it with a
different owning path fails fatally with the message naming both paths; and
across any successful walk each descriptor is recorded exactly once, in
first-seen order. -/
theorem gatherer_idempotent_or_ambiguous :
    (∀ st id e anc p, mapGet? st.elementPaths id = some p →
      getPathFromAncestors anc = some p → visitElementEv st id e anc = .ok st) ∧
    (∀ st id e anc p p', mapGet? st.elementPaths id = some p' →
      getPathFromAncestors anc = some p → p ≠ p' →
      visitElementEv st id e anc = .error (distinctPathsMsg p p') ∧
      ∃ s1 s2, distinctPathsMsg p p' = s1 ++ p ++ s2 ++ p') ∧
    (∀ st bid anc p, mapGet? st.behaviorPaths bid = some p →
      getPathFromAncestors anc = some p → visitBehaviorEv st bid anc = .ok st) ∧
    (∀ st bid anc p p', mapGet? st.behaviorPaths bid = some p' →
      getPathFromAncestors anc = some p → p ≠ p' →
      visitBehaviorEv st bid anc = .error (distinctPathsMsg p p')) ∧
    (∀ evs g, runGather evs = .ok g →
      (g.elems.map (·.1)).Nodup ∧ g.behavs.Nodup) := by
  refine ⟨?_, ?_, ?_, ?_, ?_⟩
  · intro st id e anc p hstored hanc
    simp [visitElementEv, hanc, hstored]
  · intro st id e anc p p' hstored hanc hne
    refine ⟨?_, "Found element [object Object] at distinct paths: ", " and ",
      rfl⟩
    simp [visitElementEv, hanc, hstored, hne.symm]
  · intro st bid anc p hstored hanc
    simp [visitBehaviorEv, hanc, hstored]
  · intro st bid anc p p' hstored hanc hne
    simp [visitBehaviorEv, hanc, hstored, hne.symm]
  · intro evs g h
    obtain ⟨h1, _, h3, _, _⟩ := runGather_inv evs g h
    exact ⟨h1, h3⟩

/-- Witness for C6 at a concrete state: element object `7`, already recorded
at `/d.html`, is re-visited from `/d.html` (no-op) while a re-visit from
`/other.html` throws the message naming both paths. -/
theorem gatherer_idempotent_or_ambiguous_witness :
    visitElementEv c6State 7 c6Elem ["/d.html"] = .ok c6State ∧
    visitElementEv c6State 7 c6Elem ["/other.html"] =
      .error (distinctPathsMsg "/other.html" "/d.html") :=
  ⟨gatherer_idempotent_or_ambiguous.1 c6State 7 c6Elem ["/d.html"] "/d.html"
      rfl rfl,
    (gatherer_idempotent_or_ambiguous.2.1 c6State 7 c6Elem ["/other.html"]
      "/other.html" "/d.html" rfl rfl (by decide)).1⟩

/-- **C8 counterexample.** A visited DocumentDescriptor whose basename is
`package.json` but whose parsed document is not a JSON document is not
recorded: the claim's premise holds yet the package-directory set stays
empty. -/
theorem package_gatherer_counterexample :
    basename "a/package.json" ∈ packageFileNames ∧
    visitPackageDoc [] "a/package.json" false = [] ∧
    runGather (walkForest [⟨"a/package.json", false, [], []⟩]) =
      .ok ⟨[], [], [], [], []⟩ :=
  ⟨by decide, rfl, rfl⟩

/-- **C8 (amended).** For a visited DocumentDescriptor whose parsed document
is a JSON document and whose basename is a manifest marker, the containing
directory is recorded; non-JSON documents and non-marker basenames are never
recorded; and the package-directory set never holds duplicates. -/
theorem package_gatherer_records_manifest_dirs :
    (∀ dirs url, basename url ∈ packageFileNames →
      dirname url ∈ visitPackageDoc dirs url true) ∧
    (∀ dirs url j, basename url ∉ packageFileNames →
      visitPackageDoc dirs url j = dirs) ∧
    (∀ dirs url, visitPackageDoc dirs url false = dirs) ∧
    (∀ dirs url j, dirs.Nodup → (visitPackageDoc dirs url j).Nodup) ∧
    (∀ evs g, runGather evs = .ok g → g.pkgDirs.Nodup) := by
  refine ⟨?_, ?_, ?_, visitPackageDoc_nodup, ?_⟩
  · intro dirs url hmem
    have hc : packageFileNames.contains (basename url) = true :=
      List.elem_eq_true_of_mem hmem
    unfold visitPackageDoc
    split
    · split
      · next hmem' => exact List.elem_iff.mp hmem'
      · exact List.mem_append_right dirs (List.mem_singleton.mpr rfl)
    · next hcond => exact absurd (by rw [Bool.true_and]; exact hc) hcond
  · intro dirs url j hmem
    unfold visitPackageDoc
    split
    · next hcond =>
      rw [Bool.and_eq_true] at hcond
      exact absurd (List.elem_iff.mp hcond.2) hmem
    · rfl
  · intro dirs url
    rfl
  · intro evs g h
    exact (runGather_inv evs g h).2.2.2.2

/-- Witness for C8's amended claim at a concrete input. -/
theorem package_gatherer_records_manifest_dirs_witness :
    basename "a/package.json" ∈ packageFileNames ∧
    dirname "a/package.json" ∈ visitPackageDoc [] "a/package.json" true :=
  ⟨by decide,
    package_gatherer_records_manifest_dirs.1 [] "a/package.json" (by decide)⟩

/-! ### Validator lemmas (claim C4) -/

/-- **C4 counterexample.** An object with a structural violation (missing
`elements`) and `schema_version` `2.0.0`: the thrown error is the aggregate
of the structural violation messages only — it mentions neither the version
value nor the expected pattern, because the version check never runs when
structural violations exist. -/
theorem validator_aggregate_counterexample :
    validate ⟨some "2.0.0", none⟩ =
      .error (validationErrorMessage ["requires property \"elements\""]) ∧
    containsStr (validationErrorMessage ["requires property \"elements\""])
      "2.0.0" = false ∧
    containsStr (validationErrorMessage ["requires property \"elements\""])
      "1.x.x" = false :=
  ⟨rfl, by decide, by decide⟩

/-- **C4 (amended).** A `schema_version` not matching `1.x.x` fails even when
the object is structurally valid, with its own version error; when structural
violations exist, the thrown error is the single aggregate enumerating every
structural violation message, and the version check outcome is not part of it
(the version check only runs once the structure is valid). -/
theorem validator_version_gate_and_aggregate (p : SerializedAnalysis) :
    (structuralErrors p ≠ [] →
      validate p = .error (validationErrorMessage (structuralErrors p))) ∧
    (structuralErrors p = [] →
      versionOk (p.schema_version.getD "undefined") = false →
      validate p =
        .error (invalidVersionMsg (p.schema_version.getD "undefined"))) ∧
    versionOk "1.2.3" = true ∧ versionOk "2.0.0" = false := by
  refine ⟨?_, ?_, by decide, by decide⟩
  · intro hne
    unfold validate
    rw [if_pos (List.length_pos.mpr hne)]
  · intro hnil hver
    unfold validate
    rw [hnil]
    rw [if_neg (by simp)]
    rw [if_neg (by simp [hver])]

/-- Witness for C4's amended claim: a structurally valid object with version
`2.0.0` throws the version error. -/
theorem validator_version_gate_and_aggregate_witness :
    validate ⟨some "2.0.0", some []⟩ = .error (invalidVersionMsg "2.0.0") :=
  (validator_version_gate_and_aggregate ⟨some "2.0.0", some []⟩).2.1 rfl
    (by decide)

/-! ### Resolved-element lemmas (claim C9) -/

/-- **C9.** `resolveElement` is a pure function of its input (the embedding
returns a fresh `ResolvedElement` and the input descriptor is never part of
the output state, so the original is unchanged); the resolved element shares
every field other than `properties`/`attributes`/`events` with the original,
a non-Polymer element also shares those three lists verbatim, and a Polymer
element gets exactly the behavior-merged lists. -/
theorem resolveElement_shares_fields (tbl : List BehaviorD)
    (idx : List (String × Nat)) (fuel : Nat) (e : ElementD)
    (r : ResolvedElement) (h : resolveElement tbl idx fuel e = .ok r) :
    r.tagName = e.tagName ∧ r.isPolymer = e.isPolymer ∧
    r.behaviors = e.behaviors ∧ r.other = e.other ∧
    (e.isPolymer = false → r.properties = e.properties ∧
      r.attributes = e.attributes ∧ r.events = e.events) ∧
    (e.isPolymer = true → ∀ bids,
      getFlattenedAndResolvedBehaviors tbl idx fuel e.behaviors = .ok bids →
      r.properties = mergeByName e.properties
        ((bids.filterMap (fun bid => tbl.get? bid)).map
          (fun b => (b.className, b.properties))) ∧
      r.attributes = mergeByName e.attributes
        ((bids.filterMap (fun bid => tbl.get? bid)).map
          (fun b => (b.className, b.attributes))) ∧
      r.events = mergeByName e.events
        ((bids.filterMap (fun bid => tbl.get? bid)).map
          (fun b => (b.className, b.events)))) := by
  unfold resolveElement at h
  by_cases hp : e.isPolymer
  · rw [if_pos hp] at h
    cases hflat : getFlattenedAndResolvedBehaviors tbl idx fuel e.behaviors with
    | error err =>
      rw [hflat] at h
      cases h
    | ok bids =>
      rw [hflat] at h
      cases h
      refine ⟨rfl, rfl, rfl, rfl, ?_, ?_⟩
      · intro hfalse
        rw [hp] at hfalse
        cases hfalse
      · intro _ bids' hflat'
        cases hflat'
        exact ⟨rfl, rfl, rfl⟩
  · rw [if_neg hp] at h
    cases h
    exact ⟨rfl, rfl, rfl, rfl, fun _ => ⟨rfl, rfl, rfl⟩,
      fun htrue => absurd htrue hp⟩

/-- Witness for C9 at a concrete Polymer element with an empty behaviors
list. -/
theorem resolveElement_shares_fields_witness :
    (⟨some "x", [⟨"p", none, 1⟩], [], [], true, [], 3⟩ :
        ResolvedElement).tagName =
      (⟨some "x", [⟨"p", none, 1⟩], [], [], true, [], 3⟩ : ElementD).tagName ∧
    (⟨some "x", [⟨"p", none, 1⟩], [], [], true, [], 3⟩ :
        ResolvedElement).isPolymer =
      (⟨some "x", [⟨"p", none, 1⟩], [], [], true, [], 3⟩ :
        ElementD).isPolymer ∧
    (⟨some "x", [⟨"p", none, 1⟩], [], [], true, [], 3⟩ :
        ResolvedElement).behaviors =
      (⟨some "x", [⟨"p", none, 1⟩], [], [], true, [], 3⟩ :
        ElementD).behaviors ∧
    (⟨some "x", [⟨"p", none, 1⟩], [], [], true, [], 3⟩ :
        ResolvedElement).other =
      (⟨some "x", [⟨"p", none, 1⟩], [], [], true, [], 3⟩ : ElementD).other ∧
    ((⟨some "x", [⟨"p", none, 1⟩], [], [], true, [], 3⟩ :
        ElementD).isPolymer = false →
      (⟨some "x", [⟨"p", none, 1⟩], [], [], true, [], 3⟩ :
          ResolvedElement).properties =
        (⟨some "x", [⟨"p", none, 1⟩], [], [], true, [], 3⟩ :
          ElementD).properties ∧
      (⟨some "x", [⟨"p", none, 1⟩], [], [], true, [], 3⟩ :
          ResolvedElement).attributes =
        (⟨some "x", [⟨"p", none, 1⟩], [], [], true, [], 3⟩ :
          ElementD).attributes ∧
      (⟨some "x", [⟨"p", none, 1⟩], [], [], true, [], 3⟩ :
          ResolvedElement).events =
        (⟨some "x", [⟨"p", none, 1⟩], [], [], true, [], 3⟩ :
          ElementD).events) ∧
    ((⟨some "x", [⟨"p", none, 1⟩], [], [], true, [], 3⟩ :
        ElementD).isPolymer = true → ∀ bids,
      getFlattenedAndResolvedBehaviors [] [] 10
          (⟨some "x", [⟨"p", none, 1⟩], [], [], true, [], 3⟩ :
            ElementD).behaviors = .ok bids →
      (⟨some "x", [⟨"p", none, 1⟩], [], [], true, [], 3⟩ :
          ResolvedElement).properties =
        mergeByName (⟨some "x", [⟨"p", none, 1⟩], [], [], true, [], 3⟩ :
            ElementD).properties
          ((bids.filterMap (fun bid => List.get? ([] : List BehaviorD) bid)).map
            (fun b => (b.className, b.properties))) ∧
      (⟨some "x", [⟨"p", none, 1⟩], [], [], true, [], 3⟩ :
          ResolvedElement).attributes =
        mergeByName (⟨some "x", [⟨"p", none, 1⟩], [], [], true, [], 3⟩ :
            ElementD).attributes
          ((bids.filterMap (fun bid => List.get? ([] : List BehaviorD) bid)).map
            (fun b => (b.className, b.attributes))) ∧
      (⟨some "x", [⟨"p", none, 1⟩], [], [], true, [], 3⟩ :
          ResolvedElement).events =
        mergeByName (⟨some "x", [⟨"p", none, 1⟩], [], [], true, [], 3⟩ :
            ElementD).events
          ((bids.filterMap (fun bid => List.get? ([] : List BehaviorD) bid)).map
            (fun b => (b.className, b.events)))) :=
  resolveElement_shares_fields [] [] 10
    ⟨some "x", [⟨"p", none, 1⟩], [], [], true, [], 3⟩
    ⟨some "x", [⟨"p", none, 1⟩], [], [], true, [], 3⟩ rfl

/-! ### Longest-prefix attribution lemmas (claim C5) -/

theorem maxStep_some (acc : Option String) (x : String) :
    ∃ a, maxStep acc x = some a ∧ x.length ≤ a.length := by
  cases acc with
  | none => exact ⟨x, rfl, le_refl _⟩
  | some p =>
    by_cases hc : p.length > x.length
    · exact ⟨p, by simp [maxStep, hc], le_of_lt hc⟩
    · exact ⟨x, by simp [maxStep, hc], le_refl _⟩

theorem maxDir_fold_spec (l : List String) :
    ∀ (acc : Option String) (m : String), l.foldl maxStep acc = some m →
      (m ∈ l ∨ acc = some m) ∧ (∀ y ∈ l, y.length ≤ m.length) ∧
      (∀ a, acc = some a → a.length ≤ m.length) := by
  induction l with
  | nil =>
    intro acc m h
    simp only [List.foldl_nil] at h
    refine ⟨Or.inr h, by simp, ?_⟩
    intro a ha
    rw [h] at ha
    cases ha
    exact le_refl _
  | cons x rest ih =>
    intro acc m h
    simp only [List.foldl_cons] at h
    obtain ⟨h1, h2, h3⟩ := ih (maxStep acc x) m h
    have hstep2 : ∀ a b, acc = some a → maxStep acc x = some b →
        a.length ≤ b.length := by
      intro a b ha hb
      subst ha
      simp only [maxStep] at hb
      by_cases hc : a.length > x.length
      · rw [if_pos hc] at hb; cases hb; exact le_refl _
      · rw [if_neg hc] at hb; cases hb; exact Nat.le_of_not_lt hc
    refine ⟨?_, ?_, ?_⟩
    · rcases h1 with h1 | h1
      · exact Or.inl (List.mem_cons_of_mem x h1)
      · cases acc with
        | none =>
          cases h1
          exact Or.inl (List.mem_cons_self x rest)
        | some p =>
          simp only [maxStep] at h1
          by_cases hc : p.length > x.length
          · rw [if_pos hc] at h1
            exact Or.inr h1
          · rw [if_neg hc] at h1
            cases h1
            exact Or.inl (List.mem_cons_self x rest)
    · intro y hy
      rcases List.mem_cons.mp hy with hyx | hy
      · subst hyx
        obtain ⟨a, hms, hxa⟩ := maxStep_some acc y
        exact le_trans hxa (h3 a hms)
      · exact h2 y hy
    · intro a ha
      obtain ⟨b, hms, _⟩ := maxStep_some acc x
      exact le_trans (hstep2 a b ha hms) (h3 b hms)

theorem maxDir_spec (l : List String) (m : String) (h : maxDir l = some m) :
    m ∈ l ∧ ∀ y ∈ l, y.length ≤ m.length := by
  obtain ⟨h1, h2, _⟩ := maxDir_fold_spec l none m h
  exact ⟨h1.resolve_right (by simp), h2⟩

theorem foldl_maxStep_some (l : List String) :
    ∀ a : String, ∃ m, l.foldl maxStep (some a) = some m := by
  induction l with
  | nil => intro a; exact ⟨a, rfl⟩
  | cons x rest ih =>
    intro a
    simp only [List.foldl_cons]
    obtain ⟨b, hb, _⟩ := maxStep_some (some a) x
    rw [hb]
    exact ih b

theorem maxDir_isSome_of_ne_nil (l : List String) (h : l ≠ []) :
    ∃ m, maxDir l = some m := by
  match l with
  | [] => exact absurd rfl h
  | x :: rest =>
    unfold maxDir
    simp only [List.foldl_cons]
    exact foldl_maxStep_some rest x

theorem mapGet?_replace_ne {κ ν : Type} [DecidableEq κ] (m : List (κ × ν))
    (k : κ) (v : ν) (k' : κ) (h : k' ≠ k) :
    mapGet? (m.map (fun p => if p.1 = k then (k, v) else p)) k' =
      mapGet? m k' := by
  induction m with
  | nil => rfl
  | cons p rest ih =>
    simp only [List.map_cons]
    by_cases hpk : p.1 = k
    · rw [if_pos hpk, mapGet?_cons_of_neg (k, v) _ k' (Ne.symm h),
        mapGet?_cons_of_neg p rest k' (fun hp => h (hp ▸ hpk))]
      exact ih
    · rw [if_neg hpk]
      by_cases hpk' : p.1 = k'
      · rw [mapGet?_cons_of_pos _ _ _ hpk', mapGet?_cons_of_pos _ _ _ hpk']
      · rw [mapGet?_cons_of_neg _ _ _ hpk', mapGet?_cons_of_neg _ _ _ hpk']
        exact ih

theorem mapGet?_mapSet_ne {κ ν : Type} [DecidableEq κ] (m : List (κ × ν))
    (k : κ) (v : ν) (k' : κ) (h : k' ≠ k) :
    mapGet? (mapSet m k v) k' = mapGet? m k' := by
  unfold mapSet
  split
  · exact mapGet?_replace_ne m k v k' h
  · cases hm : mapGet? m k' with
    | some v' => exact mapGet?_append_left m _ k' v' hm
    | none =>
      rw [mapGet?_append_right m _ k' hm,
        mapGet?_cons_of_neg (k, v) [] k' (Ne.symm h)]
      rfl

theorem indexByTag_byPkg (st : IndexState) (r : ResolvedElement) :
    (indexByTag st r).byPkg = st.byPkg := by
  unfold indexByTag
  split
  · split <;> rfl
  · rfl

theorem indexElement_byPkg_other_unchanged (pkgDirs : List String)
    (st : IndexState) (r : ResolvedElement) (path : String) (dir' : String)
    (h : dir' ≠ longestMatchingPackageDir pkgDirs path) :
    mapGet? (indexElement pkgDirs st r path).byPkg dir' =
      mapGet? st.byPkg dir' := by
  have hpkg : (indexElement pkgDirs st r path).byPkg =
      mapSet (indexByTag st r).byPkg (longestMatchingPackageDir pkgDirs path)
        ((mapGet? (indexByTag st r).byPkg
          (longestMatchingPackageDir pkgDirs path)).getD [] ++ [r]) := rfl
  rw [hpkg, mapGet?_mapSet_ne _ _ _ _ h, indexByTag_byPkg]

theorem eq_of_same_length_prefixes (d m path : String)
    (hd : strStartsWith path d = true) (hm : strStartsWith path m = true)
    (hlen : d.length = m.length) : d = m := by
  unfold strStartsWith at hd hm
  have hd' : d.data <+: path.data := List.isPrefixOf_iff_prefix.mp hd
  have hm' : m.data <+: path.data := List.isPrefixOf_iff_prefix.mp hm
  have hpre : d.data <+: m.data :=
    List.prefix_of_prefix_length_le hd' hm' (le_of_eq hlen)
  have heq : d.data = m.data := hpre.eq_of_length hlen
  cases d
  cases m
  exact congrArg String.mk heq

/-- **C5.** Each gathered element is appended to exactly the bucket of the
longest gathered package directory that is a string prefix of its owning
path (the empty-string bucket when none matches); concretely, with package
dirs `/a` and `/a/b` and owning path `/a/b/c.html` the element lands in the
`/a/b` bucket and the `/a` bucket does not exist. -/
theorem longest_prefix_package_attribution :
    (∀ (dirs : List String) (path d : String), d ∈ dirs →
      strStartsWith path d = true →
      (∀ d' ∈ dirs, strStartsWith path d' = true → d'.length ≤ d.length) →
      longestMatchingPackageDir dirs path = d) ∧
    (∀ (dirs : List String) (path : String),
      (∀ d ∈ dirs, strStartsWith path d = false) →
      longestMatchingPackageDir dirs path = "") ∧
    (∀ (pkgDirs : List String) (st : IndexState) (r : ResolvedElement)
        (path dir' : String), dir' ≠ longestMatchingPackageDir pkgDirs path →
      mapGet? (indexElement pkgDirs st r path).byPkg dir' =
        mapGet? st.byPkg dir') ∧
    ((mkAnalysis [] c5Roots 100).map
        (fun a => getElementsForPackage a "/a/b") =
      .ok (some [⟨some "x-a", [], [], [], false, [], 7⟩]) ∧
     (mkAnalysis [] c5Roots 100).map (fun a => getElementsForPackage a "/a") =
      .ok none) := by
  refine ⟨?_, ?_, indexElement_byPkg_other_unchanged, rfl, rfl⟩
  · intro dirs path d hmem hpre hmax
    unfold longestMatchingPackageDir
    have hdm : d ∈ dirs.filter (fun dir => strStartsWith path dir) :=
      List.mem_filter.mpr ⟨hmem, hpre⟩
    have hne : dirs.filter (fun dir => strStartsWith path dir) ≠ [] := by
      intro hnil
      rw [hnil] at hdm
      cases hdm
    obtain ⟨m, hm⟩ := maxDir_isSome_of_ne_nil _ hne
    rw [hm]
    obtain ⟨hmmem, hmmax⟩ := maxDir_spec _ m hm
    have hmdirs := List.mem_filter.mp hmmem
    have hlen : d.length = m.length :=
      le_antisymm (hmmax d hdm) (hmax m hmdirs.1 hmdirs.2)
    rw [← eq_of_same_length_prefixes d m path hpre hmdirs.2 hlen]
    rfl
  · intro dirs path h
    unfold longestMatchingPackageDir
    rw [List.filter_eq_nil_iff.mpr (fun d hd => by simp [h d hd])]
    rfl

/-- Witness for C5's quantified part at the spec's concrete instance. -/
theorem longest_prefix_package_attribution_witness :
    longestMatchingPackageDir ["/a", "/a/b"] "/a/b/c.html" = "/a/b" :=
  longest_prefix_package_attribution.1 ["/a", "/a/b"] "/a/b/c.html" "/a/b"
    (by decide) (by decide) (by decide)

/-! ### Untagged-element indexing lemmas (claim C10) -/

/-- **C10.** An element without a tag name is still resolved and appended to
its attributed package bucket, but the tag-name index is unchanged by it, so
`getElement` cannot return it and `getElements` (which enumerates the
tag-name index's values) does not include it.  Concretely, for a forest whose
only element has no tag name, `getElements` is empty and `getElement` returns
nothing for every tag, while the empty-string package bucket contains the
resolved element. -/
theorem untagged_element_bucketed_not_indexed :
    (∀ (pkgDirs : List String) (st : IndexState) (r : ResolvedElement)
        (path : String), r.tagName = none →
      (indexElement pkgDirs st r path).byTag = st.byTag ∧
      mapGet? (indexElement pkgDirs st r path).byPkg
          (longestMatchingPackageDir pkgDirs path) =
        some ((mapGet? st.byPkg
          (longestMatchingPackageDir pkgDirs path)).getD [] ++ [r])) ∧
    (∀ a : Analysis, getElements a = a.elementsByTagName.map (·.2)) ∧
    ((mkAnalysis [] c10Roots 100).map getElements = .ok [] ∧
     (mkAnalysis [] c10Roots 100).map (fun a => getElementsForPackage a "") =
       .ok (some [⟨none, [], [], [], false, [], 5⟩]) ∧
     ∀ t, (mkAnalysis [] c10Roots 100).map (fun a => getElement a t) =
       .ok none) := by
  refine ⟨?_, fun _ => rfl, rfl, rfl, fun t => rfl⟩
  intro pkgDirs st r path htag
  have hbt : indexByTag st r = st := by
    unfold indexByTag
    rw [htag]
  refine ⟨?_, ?_⟩
  · show (indexByTag st r).byTag = st.byTag
    rw [hbt]
  · have hpkg : (indexElement pkgDirs st r path).byPkg =
        mapSet (indexByTag st r).byPkg
          (longestMatchingPackageDir pkgDirs path)
          ((mapGet? (indexByTag st r).byPkg
            (longestMatchingPackageDir pkgDirs path)).getD [] ++ [r]) := rfl
    rw [hpkg, hbt]
    exact mapGet?_mapSet_self _ _ _

/-- Witness for C10's quantified part at a concrete resolved element without
a tag name. -/
theorem untagged_element_bucketed_not_indexed_witness :
    (indexElement [] ⟨[], []⟩ ⟨none, [], [], [], false, [], 5⟩
      "/d.html").byTag = (⟨[], []⟩ : IndexState).byTag ∧
    mapGet? (indexElement [] ⟨[], []⟩ ⟨none, [], [], [], false, [], 5⟩
        "/d.html").byPkg (longestMatchingPackageDir [] "/d.html") =
      some ((mapGet? (⟨[], []⟩ : IndexState).byPkg
        (longestMatchingPackageDir [] "/d.html")).getD []
        ++ [⟨none, [], [], [], false, [], 5⟩]) :=
  untagged_element_bucketed_not_indexed.1 [] ⟨[], []⟩
    ⟨none, [], [], [], false, [], 5⟩ "/d.html" rfl

end PolymerAnalysis
